import Mathlib

/-!
Verification of the `dirsync` directory-synchronisation engine (`sync/sync.go`).

The filesystem is modelled as a flat finite map from tree-relative paths
(lists of path components) to nodes, mirroring the lstat view that
`filepath.Walk`/`filepath.WalkDir` expose: an entry per visited path, with
no entries underneath a symbolic link (links are never followed).  The
function `Dirs` below is a line-by-line shallow embedding of `sync.Dirs`:
it builds the destination inventory, walks the source entries, and runs the
deletion pass over the leftover inventory.

Idealisations (stated once here):
* I/O faults (permission errors, disappearing files, short writes) are not
  modelled; the only failures are the structural ones the filesystem shape
  forces: `os.MkdirAll` hitting a non-directory component and `os.Create`
  hitting a directory.  Consequently the destination walk and the deletion
  pass never fail in the model, exactly as on a healthy filesystem.
* Go reports those failures as `*PathError` values carrying the operation
  and the offending path; the model's `SyncError.actionError act p` carries
  the same two pieces of data.
* Directory sizes and directory modification times are platform values in
  Go; the model fixes them to `0`.  No theorem below depends on them.
* `os.Create` on a path occupied by a symbolic link writes through the
  link; the model instead replaces the link entry.  No claim exercises
  this corner.
-/

namespace Dirsync

/-- Tree-relative path, as the list of its components
(`filepath.Rel` output split on the separator). -/
abbrev Path := List String

/-- One filesystem node in the lstat view: a regular file (bytes,
modification time, permission bits), a directory (permission bits), or a
symbolic link (target, modification time). -/
inductive Node where
  | file (content : List Nat) (modTime : Int) (perm : Nat)
  | dir (perm : Nat)
  | symlink (target : String) (modTime : Int)
deriving DecidableEq, Repr

/-- A directory tree: the entries strictly below the root, keyed by
tree-relative path.  The root itself is implicit (both walks treat it
specially: `filepath.Walk` skips it, the source walk only re-runs the
root `MkdirAll` on it). -/
abbrev Tree := List (Path × Node)

/-- Metadata stored in the destination inventory for one entry:
`os.FileInfo`'s `Size()`, `ModTime()` and `IsDir()` as used by `Dirs`. -/
structure Info where
  size : Nat
  modTime : Int
  isDir : Bool
deriving DecidableEq, Repr

/-- FileInfo of a node.  Directory sizes and times are platform values in
Go; they are fixed to `0` here and no theorem depends on them. -/
def infoOf : Node → Info
  | .file c mt _ => ⟨c.length, mt, false⟩
  | .dir _ => ⟨0, 0, true⟩
  | .symlink tgt mt => ⟨tgt.length, mt, false⟩

/-- Embedding of `needsUpdate` (sync.go lines 141-143):
`src.Size() != dst.Size() || !src.ModTime().Equal(dst.ModTime())`. -/
def needsUpdate (src dst : Info) : Bool :=
  src.size != dst.size || src.modTime != dst.modTime

/-- Actions whose failure Go reports through a `*PathError` in `Dirs`:
`os.MkdirAll` (op "mkdir") and `os.Create` (op "open"/create). -/
inductive Act where
  | mkdir
  | create
deriving DecidableEq, Repr

/-- Errors `Dirs` can return in the model: the wrapped
"error walking source folder" traversal error, or a per-action error
carrying the failing action and the failing path (Go's `*PathError`
`Op`/`Path` fields). -/
inductive SyncError where
  | walkingSourceFolder
  | actionError (act : Act) (path : Path)
deriving DecidableEq, Repr

/-- Whether a node is a directory (`os.FileInfo.IsDir` on the lstat view). -/
def isDirNode : Node → Bool
  | .dir _ => true
  | _ => false

/-- Association-list lookup on path-keyed lists (Go map read). -/
def lookupKey {α : Type} : List (Path × α) → Path → Option α
  | [], _ => none
  | e :: rest, p => if e.fst = p then some e.snd else lookupKey rest p

/-- Association-list removal of a key (Go `delete(m, key)`). -/
def eraseKey {α : Type} : List (Path × α) → Path → List (Path × α)
  | [], _ => []
  | e :: rest, p => if e.fst = p then eraseKey rest p else e :: eraseKey rest p

/-- The destination inventory `dstFiles` (sync.go lines 28-44): every entry
below the destination root, keyed by tree-relative path, with its
`os.FileInfo`.  The walk skips the root and, absent I/O faults, cannot
fail. -/
def invOf (t : Tree) : List (Path × Info) :=
  t.map (fun e => (e.fst, infoOf e.snd))

/-- Worker for `os.MkdirAll`: checks/creates each prefix of the target in
turn.  `done` is the already-validated prefix, `rest` the remaining
components.  A non-directory at a prefix yields the mkdir `*PathError` for
that prefix; missing prefixes are created as directories with permission
0o755.  Go's top-down recursion makes this all-or-nothing: the blocking
component already exists, so nothing was created before the failure. -/
def mkdirAllAux : Tree → Path → List String → Except SyncError Tree
  | t, _, [] => .ok t
  | t, done, c :: cs =>
    match lookupKey t (done ++ [c]) with
    | some n =>
      if isDirNode n then mkdirAllAux t (done ++ [c]) cs
      else .error (.actionError .mkdir (done ++ [c]))
    | none => mkdirAllAux (t ++ [(done ++ [c], Node.dir 0o755)]) (done ++ [c]) cs

/-- Embedding of `os.MkdirAll(path, 0o755)` relative to the tree root. -/
def mkdirAll (t : Tree) (p : Path) : Except SyncError Tree :=
  mkdirAllAux t [] p

/-- Write-or-replace of the entry at `p` (`os.Create` + the copied bytes). -/
def setEntry : Tree → Path → Node → Tree
  | [], p, n => [(p, n)]
  | e :: rest, p, n => if e.fst = p then (p, n) :: rest else e :: setEntry rest p n

/-- Embedding of `copyFile` (sync.go lines 108-139): ensure the parent
directory chain (`os.MkdirAll(filepath.Dir(dst), 0o755)`), create/truncate
the destination (fails with a create `*PathError` if a directory occupies
the path), stream the source bytes, then `os.Chtimes` to the source's
modification time and `os.Chmod` to the source's permission bits.  The
successful composite leaves `Node.file c mt pm` at `p`. -/
def copyFile (t : Tree) (p : Path) (c : List Nat) (mt : Int) (pm : Nat) :
    Except SyncError Tree :=
  match mkdirAll t p.dropLast with
  | .error e => .error e
  | .ok t' =>
    match lookupKey t' p with
    | some n =>
      if isDirNode n then .error (.actionError .create p)
      else .ok (setEntry t' p (.file c mt pm))
    | none => .ok (setEntry t' p (.file c mt pm))

/-- State threaded through the source walk: the destination tree and the
remaining inventory. -/
structure St where
  dst : Tree
  inv : List (Path × Info)
deriving DecidableEq, Repr

/-- One iteration of the source-walk callback (sync.go lines 50-84):
symbolic links are skipped; directories get `os.MkdirAll` at the joined
destination path (the inventory entry is NOT consumed); files are looked
up in the inventory, the inventory entry is deleted, and the file is
copied when absent or when `needsUpdate` holds. -/
def syncStep (st : St) (e : Path × Node) : Except SyncError St :=
  match e.snd with
  | .symlink _ _ => .ok st
  | .dir _ =>
    match mkdirAll st.dst e.fst with
    | .ok d => .ok ⟨d, st.inv⟩
    | .error err => .error err
  | .file c mt pm =>
    match lookupKey st.inv e.fst with
    | some i =>
      if needsUpdate ⟨c.length, mt, false⟩ i then
        match copyFile st.dst e.fst c mt pm with
        | .ok d => .ok ⟨d, eraseKey st.inv e.fst⟩
        | .error err => .error err
      else .ok ⟨st.dst, eraseKey st.inv e.fst⟩
    | none =>
      match copyFile st.dst e.fst c mt pm with
      | .ok d => .ok ⟨d, st.inv⟩
      | .error err => .error err

/-- The source walk: entries in traversal order, aborting on the first
failing step (`filepath.WalkDir` stops when the callback errors).  The
state reached before the failure is kept alongside the error, since the
real filesystem keeps the mutations already performed. -/
def walkSrc : List (Path × Node) → St → St × Option SyncError
  | [], st => (st, none)
  | e :: rest, st =>
    match syncStep st e with
    | .ok st' => walkSrc rest st'
    | .error err => (st, some err)

/-- Recursive removal of the entry at `p` and everything below it
(`os.RemoveAll`); a no-op when nothing is there. -/
def removeAll (t : Tree) (p : Path) : Tree :=
  t.filter (fun e => !(p.isPrefixOf e.fst))

/-- One leftover-inventory deletion (sync.go lines 91-101): `os.RemoveAll`,
re-run for directories (the second call is a no-op).  Absent I/O faults
removal cannot fail. -/
def deleteOne (t : Tree) (e : Path × Info) : Tree :=
  let t1 := removeAll t e.fst
  if e.snd.isDir then removeAll t1 e.fst else t1

/-- The deletion pass (sync.go lines 89-103): every path still in the
inventory after the source walk is removed from the destination.  Go
iterates the map in unspecified order; `removeAll` is idempotent and
prefix-monotone, so the resulting tree does not depend on the order. -/
def deletePass (inv : List (Path × Info)) (t : Tree) : Tree :=
  inv.foldl deleteOne t

/-- Embedding of `sync.Dirs` (sync.go lines 23-106).  `src = none` models a
non-existent source root: `filepath.WalkDir` then invokes the callback
once with a non-nil error, which is wrapped as the
"error walking source folder" error.  `dst = none` models a non-existent
destination root, which the initial `os.MkdirAll(dstDir, 0o755)` creates
empty (a destination root occupied by a file is not representable; the
caller-facing claims never need it).  The walk of the source root entry
itself only repeats that `MkdirAll` and is omitted as the identity. -/
def Dirs (src : Option Tree) (dst : Option Tree) (deleteMissing : Bool) :
    Option Tree × Option SyncError :=
  let d0 := dst.getD []
  let inv := invOf d0
  match src with
  | none => (some d0, some .walkingSourceFolder)
  | some s =>
    match walkSrc s ⟨d0, inv⟩ with
    | (st, some e) => (some st.dst, some e)
    | (st, none) =>
      if deleteMissing then (some (deletePass st.inv st.dst), none)
      else (some st.dst, none)

/-- How one source entry is meant to appear at the destination: files kept
verbatim, directories recreated with permission 0o755, symbolic links
dropped. -/
def mirrorEntry : Path × Node → Option (Path × Node)
  | (q, Node.file c mt pm) => some (q, Node.file c mt pm)
  | (q, Node.dir _) => some (q, Node.dir 0o755)
  | (_, Node.symlink _ _) => none

/-- The tree `Dirs` is meant to produce at the destination. -/
def mirror (t : Tree) : Tree :=
  t.filterMap mirrorEntry

/-- Boolean test that `t` holds a directory entry exactly at `q`. -/
def hasDirAt (t : Tree) (q : Path) : Bool :=
  t.any (fun e => e.fst == q && isDirNode e.snd)

/-- Keys are pairwise distinct (a real directory cannot hold two entries
of the same name). -/
def NodupKeys (t : Tree) : Prop :=
  t.Pairwise (fun a b => a.fst ≠ b.fst)

/-- Every proper nonempty prefix of an entry's path is itself a directory
entry of the tree (parents exist and are directories; in particular no
entry sits below a file or a symbolic link). -/
def PrefixClosed (t : Tree) : Prop :=
  ∀ e ∈ t, ∀ i, 0 < i → i < e.fst.length → hasDirAt t (e.fst.take i) = true

/-- A tree shaped like a real directory tree: nonempty keys, no duplicate
keys, parents present as directories. -/
def WellFormed (t : Tree) : Prop :=
  (∀ e ∈ t, e.fst ≠ []) ∧ NodupKeys t ∧ PrefixClosed t

/-- A source entry has been realised at the destination: files verbatim,
directories with permission 0o755 (`os.MkdirAll`'s mode); symbolic links
demand nothing. -/
def mirrored (d : Tree) : Path × Node → Prop
  | (q, Node.file c mt pm) => lookupKey d q = some (Node.file c mt pm)
  | (q, Node.dir _) => lookupKey d q = some (Node.dir 0o755)
  | (_, Node.symlink _ _) => True

/-- A two-entry source tree, directory `d` holding file `d/f`; used by the
concrete runs below. -/
def srcDF : Tree :=
  [(["d"], Node.dir 0o755), (["d", "f"], Node.file [104, 105] 5 0o644)]

theorem dropLast_pre {α : Type} (l : List α) : l.dropLast <+: l :=
  List.dropLast_prefix l

theorem lookupKey_none_key {α : Type} :
    ∀ {t : List (Path × α)} {p : Path}, lookupKey t p = none → ∀ e ∈ t, e.fst ≠ p := by
  intro t
  induction t with
  | nil => intro p _ e he; cases he
  | cons a rest ih =>
    intro p h e he
    rw [lookupKey] at h
    by_cases ha : a.fst = p
    · rw [if_pos ha] at h; simp at h
    · rw [if_neg ha] at h
      rcases List.mem_cons.mp he with rfl | he'
      · exact ha
      · exact ih h e he'

theorem lookupKey_mem {α : Type} :
    ∀ {t : List (Path × α)} {p : Path} {n : α}, lookupKey t p = some n → (p, n) ∈ t := by
  intro t
  induction t with
  | nil => intro p n h; simp [lookupKey] at h
  | cons a rest ih =>
    intro p n h
    obtain ⟨af, an⟩ := a
    by_cases ha : af = p
    · subst ha
      simp [lookupKey] at h
      subst h
      exact List.mem_cons_self _ _
    · simp only [lookupKey, if_neg ha] at h
      exact List.mem_cons_of_mem _ (ih h)

theorem lookupKey_append_some {α : Type} :
    ∀ {t : List (Path × α)} (u : List (Path × α)) {p : Path} {n : α},
      lookupKey t p = some n → lookupKey (t ++ u) p = some n := by
  intro t
  induction t with
  | nil => intro u p n h; simp [lookupKey] at h
  | cons a rest ih =>
    intro u p n h
    rw [List.cons_append, lookupKey]
    rw [lookupKey] at h
    by_cases ha : a.fst = p
    · rw [if_pos ha] at h ⊢; exact h
    · rw [if_neg ha] at h ⊢; exact ih u h

theorem lookupKey_append_none {α : Type} :
    ∀ {t : List (Path × α)} (u : List (Path × α)) {p : Path},
      lookupKey t p = none → lookupKey (t ++ u) p = lookupKey u p := by
  intro t
  induction t with
  | nil => intro u p _; rfl
  | cons a rest ih =>
    intro u p h
    rw [List.cons_append, lookupKey]
    rw [lookupKey] at h
    by_cases ha : a.fst = p
    · rw [if_pos ha] at h; simp at h
    · rw [if_neg ha] at h ⊢; exact ih u h

theorem lookupKey_append_single {α : Type} {t : List (Path × α)} {q p : Path} {m x : α}
    (h : lookupKey (t ++ [(q, m)]) p = some x) :
    lookupKey t p = some x ∨ (p = q ∧ x = m) := by
  cases hl : lookupKey t p with
  | some y =>
    left
    rw [lookupKey_append_some [(q, m)] hl] at h
    injection h with h'
    subst h'
    rfl
  | none =>
    right
    rw [lookupKey_append_none [(q, m)] hl] at h
    rw [lookupKey] at h
    by_cases hq : q = p
    · rw [if_pos hq] at h
      injection h with h'
      exact ⟨hq.symm, h'.symm⟩
    · rw [if_neg hq] at h
      simp [lookupKey] at h

theorem lookupKey_append_single_ne {α : Type} {t : List (Path × α)} {q p : Path} (m : α)
    (hne : p ≠ q) : lookupKey (t ++ [(q, m)]) p = lookupKey t p := by
  cases hl : lookupKey t p with
  | some y => exact lookupKey_append_some [(q, m)] hl
  | none =>
    rw [lookupKey_append_none [(q, m)] hl, lookupKey]
    rw [if_neg (fun h : q = p => hne h.symm)]
    rfl

theorem lookupKey_setEntry_self :
    ∀ (t : Tree) (p : Path) (n : Node), lookupKey (setEntry t p n) p = some n := by
  intro t
  induction t with
  | nil => intro p n; simp [setEntry, lookupKey]
  | cons a rest ih =>
    intro p n
    rw [setEntry]
    by_cases ha : a.fst = p
    · rw [if_pos ha, lookupKey, if_pos rfl]
    · rw [if_neg ha, lookupKey, if_neg ha]; exact ih p n

theorem lookupKey_setEntry_ne :
    ∀ (t : Tree) {p q : Path} (n : Node), q ≠ p →
      lookupKey (setEntry t p n) q = lookupKey t q := by
  intro t
  induction t with
  | nil =>
    intro p q n hq
    simp only [setEntry, lookupKey]
    rw [if_neg (fun h : p = q => hq h.symm)]
  | cons a rest ih =>
    intro p q n hq
    rw [setEntry]
    by_cases ha : a.fst = p
    · rw [if_pos ha, lookupKey, lookupKey, if_neg (fun h : p = q => hq h.symm),
        if_neg (ha ▸ fun h : a.fst = q => hq (ha ▸ h).symm)]
    · rw [if_neg ha, lookupKey, lookupKey]
      by_cases haq : a.fst = q
      · rw [if_pos haq, if_pos haq]
      · rw [if_neg haq, if_neg haq]; exact ih n hq

theorem mkdirAllAux_cons_some {t : Tree} {done : Path} {c : String}
    {cs : List String} {m : Node} (hq : lookupKey t (done ++ [c]) = some m) :
    mkdirAllAux t done (c :: cs) =
      if isDirNode m then mkdirAllAux t (done ++ [c]) cs
      else Except.error (SyncError.actionError Act.mkdir (done ++ [c])) := by
  rw [mkdirAllAux, hq]

theorem mkdirAllAux_cons_none {t : Tree} {done : Path} {c : String}
    {cs : List String} (hq : lookupKey t (done ++ [c]) = none) :
    mkdirAllAux t done (c :: cs) =
      mkdirAllAux (t ++ [(done ++ [c], Node.dir 0o755)]) (done ++ [c]) cs := by
  rw [mkdirAllAux, hq]

theorem mkdirAllAux_some :
    ∀ (rest : List String) (done : Path) (t t' : Tree),
      mkdirAllAux t done rest = Except.ok t' →
      ∀ {p : Path} {n : Node}, lookupKey t p = some n → lookupKey t' p = some n := by
  intro rest
  induction rest with
  | nil =>
    intro done t t' h p n hl
    rw [mkdirAllAux] at h
    cases h
    exact hl
  | cons c cs ih =>
    intro done t t' h p n hl
    rw [mkdirAllAux] at h
    split at h
    · rename_i m hq
      by_cases hd : isDirNode m
      · rw [if_pos hd] at h; exact ih _ _ _ h hl
      · rw [if_neg hd] at h; cases h
    · rename_i hq
      exact ih _ _ _ h (lookupKey_append_some _ hl)

theorem mkdirAllAux_not_pre :
    ∀ (rest : List String) (done : Path) (t t' : Tree),
      mkdirAllAux t done rest = Except.ok t' →
      ∀ {p : Path}, ¬ p <+: (done ++ rest) → lookupKey t' p = lookupKey t p := by
  intro rest
  induction rest with
  | nil =>
    intro done t t' h p _
    rw [mkdirAllAux] at h
    cases h
    rfl
  | cons c cs ih =>
    intro done t t' h p hp
    have hrw : (done ++ [c]) ++ cs = done ++ c :: cs := by simp
    rw [mkdirAllAux] at h
    split at h
    · rename_i m hq
      by_cases hd : isDirNode m
      · rw [if_pos hd] at h
        exact ih _ _ _ h (fun hpre => hp (hrw ▸ hpre))
      · rw [if_neg hd] at h; cases h
    · rename_i hq
      have hpq : p ≠ done ++ [c] := by
        intro he
        exact hp (he ▸ ⟨cs, hrw⟩)
      rw [ih _ _ _ h (fun hpre => hp (hrw ▸ hpre))]
      exact lookupKey_append_single_ne _ hpq

theorem mkdirAllAux_blocked :
    ∀ (rest : List String) (done : Path) (t : Tree) {x : Node},
      rest ≠ [] → lookupKey t (done ++ rest) = some x → isDirNode x = false →
      ∃ e, mkdirAllAux t done rest = Except.error e := by
  intro rest
  induction rest with
  | nil => intro done t x hne _ _; exact absurd rfl hne
  | cons c cs ih =>
    intro done t x _ hf hd
    cases cs with
    | nil =>
      refine ⟨SyncError.actionError Act.mkdir (done ++ [c]), ?_⟩
      rw [mkdirAllAux_cons_some hf, if_neg (by simp [hd])]
    | cons c2 cs2 =>
      have hrw : (done ++ [c]) ++ (c2 :: cs2) = done ++ c :: c2 :: cs2 := by simp
      cases hq : lookupKey t (done ++ [c]) with
      | some m =>
        rw [mkdirAllAux_cons_some hq]
        by_cases hdm : isDirNode m
        · rw [if_pos hdm]
          exact ih (done ++ [c]) t (by simp) (by rw [hrw]; exact hf) hd
        · rw [if_neg hdm]
          exact ⟨_, rfl⟩
      | none =>
        rw [mkdirAllAux_cons_none hq]
        exact ih (done ++ [c]) _ (by simp)
          (by rw [hrw]; exact lookupKey_append_some _ hf) hd

theorem copyFile_ok_destruct {t : Tree} {p : Path} {c : List Nat} {mt : Int}
    {pm : Nat} {t2 : Tree} (h : copyFile t p c mt pm = Except.ok t2) :
    ∃ t1, mkdirAll t p.dropLast = Except.ok t1 ∧
      t2 = setEntry t1 p (Node.file c mt pm) := by
  rw [copyFile] at h
  split at h
  · cases h
  · rename_i t1 heq
    refine ⟨t1, heq, ?_⟩
    split at h
    · rename_i n hn
      by_cases hd : isDirNode n
      · rw [if_pos hd] at h; cases h
      · rw [if_neg hd] at h; injection h with h'; exact h'.symm
    · injection h with h'; exact h'.symm

theorem copyFile_ok_self {t : Tree} {p : Path} {c : List Nat} {mt : Int}
    {pm : Nat} {t2 : Tree} (h : copyFile t p c mt pm = Except.ok t2) :
    lookupKey t2 p = some (Node.file c mt pm) := by
  obtain ⟨t1, _, rfl⟩ := copyFile_ok_destruct h
  exact lookupKey_setEntry_self t1 p _

theorem copyFile_preserve_some {t : Tree} {p : Path} {c : List Nat} {mt : Int}
    {pm : Nat} {t2 : Tree} {q : Path} {n : Node} (hne : q ≠ p)
    (h : copyFile t p c mt pm = Except.ok t2) (hl : lookupKey t q = some n) :
    lookupKey t2 q = some n := by
  obtain ⟨t1, h1, rfl⟩ := copyFile_ok_destruct h
  rw [lookupKey_setEntry_ne t1 _ hne]
  exact mkdirAllAux_some _ _ _ _ h1 hl

theorem copyFile_pre_none {t : Tree} {p : Path} {c : List Nat} {mt : Int}
    {pm : Nat} {t2 : Tree} {q : Path} (hq : ¬ q <+: p)
    (h : copyFile t p c mt pm = Except.ok t2) (hl : lookupKey t q = none) :
    lookupKey t2 q = none := by
  obtain ⟨t1, h1, rfl⟩ := copyFile_ok_destruct h
  have hne : q ≠ p := fun he => hq (he ▸ List.prefix_refl p)
  rw [lookupKey_setEntry_ne t1 _ hne]
  have h2 : ¬ q <+: ([] : Path) ++ p.dropLast := by
    rw [List.nil_append]
    exact fun hpre => hq (hpre.trans (dropLast_pre p))
  rw [mkdirAllAux_not_pre _ _ _ _ h1 h2]
  exact hl

theorem syncStep_ok_preserve_some {st : St} {e : Path × Node} {st2 : St}
    (h : syncStep st e = Except.ok st2) {p : Path} {n : Node} (hne : e.fst ≠ p)
    (hl : lookupKey st.dst p = some n) : lookupKey st2.dst p = some n := by
  obtain ⟨q, nd⟩ := e
  cases nd with
  | symlink tg mts =>
    simp only [syncStep] at h
    injection h with h'
    subst h'
    exact hl
  | dir pmd =>
    simp only [syncStep] at h
    split at h
    · rename_i d hd
      injection h with h'
      subst h'
      exact mkdirAllAux_some _ _ _ _ hd hl
    · cases h
  | file c mt pm =>
    simp only [syncStep] at h
    split at h
    · rename_i i hi
      split at h
      · split at h
        · rename_i d hc
          injection h with h'
          subst h'
          exact copyFile_preserve_some (Ne.symm hne) hc hl
        · cases h
      · injection h with h'
        subst h'
        exact hl
    · split at h
      · rename_i d hc
        injection h with h'
        subst h'
        exact copyFile_preserve_some (Ne.symm hne) hc hl
      · cases h

theorem syncStep_ok_keeps {st : St} {e : Path × Node} {st2 : St}
    (h : syncStep st e = Except.ok st2) {q : Path} {y : Node}
    (hl : lookupKey st.dst q = some y) : ∃ y', lookupKey st2.dst q = some y' := by
  by_cases hne : e.fst = q
  · obtain ⟨qe, nd⟩ := e
    cases nd with
    | symlink tg mts =>
      simp only [syncStep] at h
      injection h with h'
      subst h'
      exact ⟨y, hl⟩
    | dir pmd =>
      simp only [syncStep] at h
      split at h
      · rename_i d hd
        injection h with h'
        subst h'
        exact ⟨y, mkdirAllAux_some _ _ _ _ hd hl⟩
      · cases h
    | file c mt pm =>
      simp only [syncStep] at h
      have hq : qe = q := hne
      split at h
      · rename_i i hi
        split at h
        · split at h
          · rename_i d hc
            injection h with h'
            subst h'
            exact ⟨Node.file c mt pm, hq ▸ copyFile_ok_self hc⟩
          · cases h
        · injection h with h'
          subst h'
          exact ⟨y, hl⟩
      · split at h
        · rename_i d hc
          injection h with h'
          subst h'
          exact ⟨Node.file c mt pm, hq ▸ copyFile_ok_self hc⟩
        · cases h
  · exact ⟨y, syncStep_ok_preserve_some h hne hl⟩

theorem syncStep_ok_pre_none {st : St} {e : Path × Node} {st2 : St}
    (h : syncStep st e = Except.ok st2) {p : Path}
    (hcase : (∃ tg mts, e.snd = Node.symlink tg mts) ∨ ¬ p <+: e.fst)
    (hl : lookupKey st.dst p = none) : lookupKey st2.dst p = none := by
  obtain ⟨q, nd⟩ := e
  cases nd with
  | symlink tg mts =>
    simp only [syncStep] at h
    injection h with h'
    subst h'
    exact hl
  | dir pmd =>
    rcases hcase with ⟨tg, mts, he⟩ | hnp
    · simp at he
    simp only [syncStep] at h
    split at h
    · rename_i d hd
      injection h with h'
      subst h'
      rw [mkdirAllAux_not_pre _ _ _ _ hd (by simpa using hnp)]
      exact hl
    · cases h
  | file c mt pm =>
    rcases hcase with ⟨tg, mts, he⟩ | hnp
    · simp at he
    simp only [syncStep] at h
    split at h
    · rename_i i hi
      split at h
      · split at h
        · rename_i d hc
          injection h with h'
          subst h'
          exact copyFile_pre_none hnp hc hl
        · cases h
      · injection h with h'
        subst h'
        exact hl
    · split at h
      · rename_i d hc
        injection h with h'
        subst h'
        exact copyFile_pre_none hnp hc hl
      · cases h

theorem walkSrc_preserve (Q : Tree → Prop) :
    ∀ (l : List (Path × Node)) (st : St),
      (∀ st' e st2, e ∈ l → syncStep st' e = Except.ok st2 → Q st'.dst → Q st2.dst) →
      Q st.dst → Q (walkSrc l st).fst.dst := by
  intro l
  induction l with
  | nil => intro st _ hQ; exact hQ
  | cons e rest ih =>
    intro st hstep hQ
    rw [walkSrc]
    cases hs : syncStep st e with
    | ok st' =>
      exact ih st' (fun a b c hb => hstep a b c (List.mem_cons_of_mem _ hb))
        (hstep st e st' (List.mem_cons_self _ _) hs hQ)
    | error err => exact hQ

/-- Claim C1 — REFUTED (code bug).  Source and destination both hold the
directory `d` with the up-to-date file `d/f`.  With deleteMissing = true
the claim requires the destination to still contain `d/f` afterwards and
the deletion pass to spare paths matched by source entries.  The code
never consumes the inventory entry of a matched directory (sync.go line 64
returns before the `delete` on line 74), so the deletion pass
`os.RemoveAll`s `d` — erasing the whole subtree: the run succeeds with an
empty destination. -/
theorem C1_matched_directory_deleted :
    Dirs (some srcDF) (some srcDF) true = (some [], none) := by
  decide

/-- Claim C4 — REFUTED (code bug).  Starting from a missing destination,
the first `Dirs` run with deleteMissing = true mirrors `d` and `d/f`; the
second identical run deletes them again (the matched directory `d` is left
in the inventory and swept by the deletion pass), so the second run is not
a no-op: it ends with an empty destination. -/
theorem C4_second_run_not_noop :
    Dirs (some srcDF) none true =
      (some [(["d"], Node.dir 0o755), (["d", "f"], Node.file [104, 105] 5 0o644)],
        none) ∧
    Dirs (some srcDF)
        (some [(["d"], Node.dir 0o755), (["d", "f"], Node.file [104, 105] 5 0o644)])
        true = (some [], none) ∧
    ([] : Tree) ≠
      [(["d"], Node.dir 0o755), (["d", "f"], Node.file [104, 105] 5 0o644)] := by
  refine ⟨by decide, by decide, by decide⟩

/-- Claim C7 — confirmed.  With a non-existent source root, `Dirs` returns
the wrapped "error walking source folder" traversal error for every
destination and flag value; the returned destination state shows the run
may already have mutated the destination (a missing destination root has
been created), matching "no destination mutation is guaranteed NOT to have
occurred". -/
theorem C7_missing_source_root (dst : Option Tree) (dm : Bool) :
    Dirs none dst dm = (some (dst.getD []), some SyncError.walkingSourceFolder) := by
  rfl

theorem nodup_key_unique : ∀ {t : Tree}, NodupKeys t → ∀ {p : Path} {a b : Node},
    (p, a) ∈ t → (p, b) ∈ t → a = b := by
  intro t
  induction t with
  | nil => intro _ p a b ha; cases ha
  | cons e rest ih =>
    intro hn p a b ha hb
    rw [NodupKeys, List.pairwise_cons] at hn
    obtain ⟨hhead, htail⟩ := hn
    rcases List.mem_cons.mp ha with ha' | ha' <;> rcases List.mem_cons.mp hb with hb' | hb'
    · cases ha'.trans hb'.symm
      rfl
    · exact absurd (by rw [← ha']) (hhead (p, b) hb')
    · exact absurd (by rw [← hb']) (hhead (p, a) ha')
    · exact ih htail ha' hb'

theorem hasDirAt_mem {t : Tree} {q : Path} (h : hasDirAt t q = true) :
    ∃ pm, (q, Node.dir pm) ∈ t := by
  rw [hasDirAt, List.any_eq_true] at h
  obtain ⟨e, he, hcond⟩ := h
  rw [Bool.and_eq_true, beq_iff_eq] at hcond
  obtain ⟨hfst, hdir⟩ := hcond
  cases hnd : e.snd with
  | dir pm =>
    refine ⟨pm, ?_⟩
    have hpe : (q, Node.dir pm) = e := by rw [← hfst, ← hnd]
    rw [hpe]
    exact he
  | file c mt pm => rw [hnd] at hdir; simp [isDirNode] at hdir
  | symlink tg mt => rw [hnd] at hdir; simp [isDirNode] at hdir

theorem wf_symlink_not_pre {s : Tree} {p : Path} {tg : String} {mts : Int}
    (hwf : WellFormed s) (hmem : (p, Node.symlink tg mts) ∈ s) :
    ∀ e ∈ s, (∃ tg2 mt2, e.snd = Node.symlink tg2 mt2) ∨ ¬ p <+: e.fst := by
  obtain ⟨hnil, hnd, hpc⟩ := hwf
  intro e he
  by_cases hpre : p <+: e.fst
  · by_cases heq : p = e.fst
    · left
      have hmem2 : (p, e.snd) ∈ s := by rw [heq]; exact he
      exact ⟨tg, mts, nodup_key_unique hnd hmem2 hmem⟩
    · exfalso
      have hlen : p.length < e.fst.length := by
        rcases lt_or_eq_of_le hpre.length_le with hlt | hl
        · exact hlt
        · exact absurd (hpre.eq_of_length hl) heq
      have h0 : 0 < p.length := by
        cases p with
        | nil => exact absurd rfl (hnil _ hmem)
        | cons a l => simp
      have htake : e.fst.take p.length = p := (List.prefix_iff_eq_take.mp hpre).symm
      have hdir := hpc e he p.length h0 hlen
      rw [htake] at hdir
      obtain ⟨pm2, hpm⟩ := hasDirAt_mem hdir
      have := nodup_key_unique hnd hpm hmem
      simp at this
  · right; exact hpre

theorem lookupKey_filter_none (f : Path × Node → Bool) :
    ∀ {t : Tree} {p : Path}, lookupKey t p = none → lookupKey (t.filter f) p = none := by
  intro t
  induction t with
  | nil => intro p _; rfl
  | cons a rest ih =>
    intro p h
    rw [lookupKey] at h
    by_cases ha : a.fst = p
    · rw [if_pos ha] at h; simp at h
    · rw [if_neg ha] at h
      rw [List.filter_cons]
      by_cases hfa : f a = true
      · rw [if_pos hfa, lookupKey, if_neg ha]; exact ih h
      · rw [if_neg hfa]; exact ih h

theorem removeAll_none {t : Tree} {p q : Path} (h : lookupKey t p = none) :
    lookupKey (removeAll t q) p = none :=
  lookupKey_filter_none _ h

theorem deleteOne_none {t : Tree} {p : Path} (e : Path × Info)
    (h : lookupKey t p = none) : lookupKey (deleteOne t e) p = none := by
  simp only [deleteOne]
  by_cases hd : e.snd.isDir = true
  · rw [if_pos hd]; exact removeAll_none (removeAll_none h)
  · rw [if_neg hd]; exact removeAll_none h

theorem deletePass_none : ∀ (inv : List (Path × Info)) {t : Tree} {p : Path},
    lookupKey t p = none → lookupKey (deletePass inv t) p = none := by
  intro inv
  induction inv with
  | nil => intro t p h; exact h
  | cons e rest ih =>
    intro t p h
    rw [deletePass, List.foldl_cons]
    exact ih (deleteOne_none e h)

theorem walkSrc_dir_blocked :
    ∀ (l : List (Path × Node)) (st : St) (p : Path) (pmd : Nat)
      (c : List Nat) (mt : Int) (pm : Nat),
      (p, Node.dir pmd) ∈ l →
      (∀ e ∈ l, e.fst = p → e.snd = Node.dir pmd) →
      p ≠ [] →
      lookupKey st.dst p = some (Node.file c mt pm) →
      (walkSrc l st).snd.isSome = true ∧
      lookupKey (walkSrc l st).fst.dst p = some (Node.file c mt pm) := by
  intro l
  induction l with
  | nil => intro st p pmd c mt pm hmem; cases hmem
  | cons e rest ih =>
    intro st p pmd c mt pm hmem hkey hp hl
    rw [walkSrc]
    by_cases hef : e.fst = p
    · have hsnd : e.snd = Node.dir pmd := hkey e (List.mem_cons_self _ _) hef
      have he2 : e = (p, Node.dir pmd) := by rw [← hef, ← hsnd]
      rw [he2]
      obtain ⟨er, her⟩ := mkdirAllAux_blocked p [] st.dst hp
        (by rw [List.nil_append]; exact hl) (by rfl)
      have hstep : syncStep st (p, Node.dir pmd) = Except.error er := by
        simp only [syncStep]
        rw [mkdirAll, her]
      rw [hstep]
      exact ⟨rfl, hl⟩
    · cases hs : syncStep st e with
      | error err => exact ⟨rfl, hl⟩
      | ok st' =>
        have hl' := syncStep_ok_preserve_some hs hef hl
        have hmem' : (p, Node.dir pmd) ∈ rest := by
          rcases List.mem_cons.mp hmem with he | hr
          · subst he; exact absurd rfl hef
          · exact hr
        exact ih st' p pmd c mt pm hmem'
          (fun e2 h2 => hkey e2 (List.mem_cons_of_mem _ h2)) hp hl'

/-- Claim C2 — confirmed.  With deleteMissing = false, any file that exists
only at the destination (its tree-relative path resolves to nothing in the
source, including when the source root is missing) is still present after
the run — whether the run succeeded or aborted — with unchanged content,
modification time and permission bits. -/
theorem C2_non_destructive_default (src : Option Tree) (d : Tree) (p : Path)
    (c : List Nat) (mt : Int) (pm : Nat)
    (hsrc : ∀ s, src = some s → lookupKey s p = none)
    (hdst : lookupKey d p = some (Node.file c mt pm)) :
    lookupKey (((Dirs src (some d) false).fst).getD []) p =
      some (Node.file c mt pm) := by
  cases src with
  | none => exact hdst
  | some s =>
    have hk : ∀ e ∈ s, e.fst ≠ p := lookupKey_none_key (hsrc s rfl)
    have hQ := walkSrc_preserve
      (fun d' => lookupKey d' p = some (Node.file c mt pm)) s ⟨d, invOf d⟩
      (fun st' e st2 hmem hstep hP =>
        syncStep_ok_preserve_some hstep (hk e hmem) hP) hdst
    rcases hw : walkSrc s ⟨d, invOf d⟩ with ⟨st, e?⟩
    rw [hw] at hQ
    cases e? with
    | none => simpa [Dirs, hw] using hQ
    | some err => simpa [Dirs, hw] using hQ

/-- Witness for C2 at a concrete run: a destination-only file `o` survives
a deleteMissing = false sync from a source holding only `s`. -/
theorem C2_non_destructive_default_witness :
    lookupKey [(["o"], Node.file [2] 3 4)] ["o"] = some (Node.file [2] 3 4) ∧
    lookupKey (((Dirs (some [(["s"], Node.file [1] 0 0)])
        (some [(["o"], Node.file [2] 3 4)]) false).fst).getD []) ["o"] =
      some (Node.file [2] 3 4) := by
  refine ⟨by decide, ?_⟩
  exact C2_non_destructive_default (some [(["s"], Node.file [1] 0 0)])
    [(["o"], Node.file [2] 3 4)] ["o"] [2] 3 4
    (fun s hs => by cases hs; decide) (by decide)

/-- Claim C3 — confirmed.  For a source file and a matching destination
inventory entry, the walker copies (invokes the copy primitive,
overwriting) exactly when `needsUpdate` holds, and `needsUpdate` holds
exactly when the sizes differ or the modification times differ (any
inequality, in either direction); when both are equal the step leaves the
destination tree untouched and only consumes the inventory entry. -/
theorem C3_staleness_predicate (d : Tree) (inv : List (Path × Info)) (p : Path)
    (c : List Nat) (mt : Int) (pm : Nat) (i : Info)
    (hi : lookupKey inv p = some i) :
    (needsUpdate ⟨c.length, mt, false⟩ i = true ↔
      (c.length ≠ i.size ∨ mt ≠ i.modTime)) ∧
    (needsUpdate ⟨c.length, mt, false⟩ i = false →
      syncStep ⟨d, inv⟩ (p, Node.file c mt pm) =
        Except.ok ⟨d, eraseKey inv p⟩) ∧
    (needsUpdate ⟨c.length, mt, false⟩ i = true →
      syncStep ⟨d, inv⟩ (p, Node.file c mt pm) =
        match copyFile d p c mt pm with
        | .ok d2 => Except.ok ⟨d2, eraseKey inv p⟩
        | .error err => Except.error err) := by
  refine ⟨?_, ?_, ?_⟩
  · simp [needsUpdate, Bool.or_eq_true, bne_iff_ne]
  · intro hfalse
    simp only [syncStep, hi]
    rw [if_neg (by simp [hfalse])]
  · intro htrue
    simp only [syncStep, hi]
    rw [if_pos htrue]

/-- Witness for C3: an up-to-date entry (size 1, time 5 on both sides) is
skipped, leaving the destination untouched. -/
theorem C3_staleness_predicate_witness :
    lookupKey [(["x"], (⟨1, 5, false⟩ : Info))] ["x"] = some ⟨1, 5, false⟩ ∧
    syncStep ⟨[], [(["x"], (⟨1, 5, false⟩ : Info))]⟩ (["x"], Node.file [9] 5 0) =
      Except.ok ⟨[], eraseKey [(["x"], (⟨1, 5, false⟩ : Info))] ["x"]⟩ := by
  refine ⟨by decide, ?_⟩
  exact (C3_staleness_predicate [] [(["x"], ⟨1, 5, false⟩)] ["x"] [9] 5 0
    ⟨1, 5, false⟩ (by decide)).2.1 (by decide)

/-- Claim C6 — confirmed.  First half: whenever `Dirs` returns a per-action
error — which by construction carries the failing action and the failing
path, as Go's `*PathError` does — the run aborted before the deletion
pass, so no destination path whatsoever has been deleted.  Second half: a
parametric family of runs whose first source entry is a directory `a`
blocked by a destination file shows the abort is immediate — the error is
the mkdir error naming path `a`, the remaining source entries are never
processed, and the destination is returned exactly as it was, whatever
`deleteMissing` says. -/
theorem C6_per_action_error_context :
    (∀ (s d : Tree) (dm : Bool) (act : Act) (p : Path),
      (Dirs (some s) (some d) dm).snd = some (SyncError.actionError act p) →
      ∀ q x, lookupKey d q = some x →
        ∃ y, lookupKey (((Dirs (some s) (some d) dm).fst).getD []) q = some y) ∧
    (∀ (d : Tree) (rest : List (Path × Node)) (pma : Nat) (c2 : List Nat)
      (mt2 : Int) (pm2 : Nat) (dm : Bool),
      lookupKey d ["a"] = some (Node.file c2 mt2 pm2) →
      Dirs (some ((["a"], Node.dir pma) :: rest)) (some d) dm =
        (some d, some (SyncError.actionError Act.mkdir ["a"]))) := by
  constructor
  · intro s d dm act p hsnd q x hqx
    have hQ := walkSrc_preserve
      (fun d' => ∀ q' x', lookupKey d q' = some x' →
        ∃ y, lookupKey d' q' = some y)
      s ⟨d, invOf d⟩
      (fun st' e st2 _ hstep hP q' x' hq' =>
        (hP q' x' hq').elim (fun y hy => syncStep_ok_keeps hstep hy))
      (fun q' x' hq' => ⟨x', hq'⟩)
    rcases hw : walkSrc s ⟨d, invOf d⟩ with ⟨st, e?⟩
    rw [hw] at hQ
    cases e? with
    | some err =>
      have hfst : (Dirs (some s) (some d) dm).fst = some st.dst := by
        simp [Dirs, hw]
      rw [hfst]
      exact hQ q x hqx
    | none =>
      exfalso
      have hnone : (Dirs (some s) (some d) dm).snd = none := by
        cases dm <;> simp [Dirs, hw]
      rw [hnone] at hsnd
      cases hsnd
  · intro d rest pma c2 mt2 pm2 dm h
    have hm : mkdirAll d ["a"] =
        Except.error (SyncError.actionError Act.mkdir ["a"]) := by
      have : (([] : Path) ++ ["a"]) = ["a"] := by simp
      rw [mkdirAll, mkdirAllAux_cons_some (by rw [this]; exact h)]
      rw [this, if_neg (by simp [isDirNode])]
    simp [Dirs, walkSrc, syncStep, hm]

/-- Witness for C6: the second half evaluated at a fully concrete blocked
run. -/
theorem C6_per_action_error_context_witness :
    lookupKey [(["a"], Node.file [] 0 0)] ["a"] = some (Node.file [] 0 0) ∧
    Dirs (some [(["a"], Node.dir 493)]) (some [(["a"], Node.file [] 0 0)]) true =
      (some [(["a"], Node.file [] 0 0)],
        some (SyncError.actionError Act.mkdir ["a"])) := by
  refine ⟨by decide, ?_⟩
  exact C6_per_action_error_context.2 [(["a"], Node.file [] 0 0)] [] 493 [] 0 0
    true (by decide)

/-- Claim C9 — confirmed.  Whenever the copy primitive reports success, the
destination holds, at the copied path, a regular file with exactly the
source's bytes, the source's modification time (via `os.Chtimes`) and the
source's permission bits (via `os.Chmod`). -/
theorem C9_copy_postcondition (t : Tree) (p : Path) (c : List Nat) (mt : Int)
    (pm : Nat) (t2 : Tree) (h : copyFile t p c mt pm = Except.ok t2) :
    lookupKey t2 p = some (Node.file c mt pm) := by
  obtain ⟨t1, _, rfl⟩ := copyFile_ok_destruct h
  exact lookupKey_setEntry_self t1 p _

/-- Witness for C9: copying the 1-byte file `f` into an empty destination. -/
theorem C9_copy_postcondition_witness :
    copyFile [] ["f"] [7] 1 2 = Except.ok [(["f"], Node.file [7] 1 2)] ∧
    lookupKey [(["f"], Node.file [7] 1 2)] ["f"] = some (Node.file [7] 1 2) := by
  refine ⟨by rfl, ?_⟩
  exact C9_copy_postcondition [] ["f"] [7] 1 2 [(["f"], Node.file [7] 1 2)]
    (by rfl)

/-- Claim C5 — confirmed.  For a well-formed source tree holding a symbolic
link at path `p`, a run of `Dirs` never creates an entry at the
corresponding destination path, whatever the deleteMissing flag: if the
destination had nothing at `p` before the run, it has nothing at `p`
afterwards (the walker skips the link and, well-formedness barring other
source entries at or below `p`, never writes there; the deletion pass only
removes entries). -/
theorem C5_symlink_exclusion (s : Tree) (dst : Option Tree) (dm : Bool)
    (p : Path) (tg : String) (mts : Int)
    (hwf : WellFormed s) (hmem : (p, Node.symlink tg mts) ∈ s)
    (hd : lookupKey (dst.getD []) p = none) :
    lookupKey (((Dirs (some s) dst dm).fst).getD []) p = none := by
  have hdisj := wf_symlink_not_pre hwf hmem
  have hQ := walkSrc_preserve (fun d' => lookupKey d' p = none) s
    ⟨dst.getD [], invOf (dst.getD [])⟩
    (fun st' e st2 hmem' hstep hP =>
      syncStep_ok_pre_none hstep (hdisj e hmem') hP) hd
  rcases hw : walkSrc s ⟨dst.getD [], invOf (dst.getD [])⟩ with ⟨st, e?⟩
  rw [hw] at hQ
  cases e? with
  | some err => simpa [Dirs, hw] using hQ
  | none =>
    cases dm with
    | false => simpa [Dirs, hw] using hQ
    | true =>
      have hdel : lookupKey (deletePass st.inv st.dst) p = none :=
        deletePass_none _ hQ
      simpa [Dirs, hw] using hdel

/-- Witness for C5: a source holding one symbolic link `l` synced into an
empty destination with deleteMissing = true leaves nothing at `l`. -/
theorem C5_symlink_exclusion_witness :
    WellFormed [(["l"], Node.symlink "t" 0)] ∧
    lookupKey (((Dirs (some [(["l"], Node.symlink "t" 0)]) (some []) true).fst).getD [])
      ["l"] = none := by
  refine ⟨?_, ?_⟩
  · refine ⟨by simp, ?_, ?_⟩
    · exact List.pairwise_singleton _ _
    · intro e he i h0 hi
      rcases List.mem_singleton.mp he with rfl
      simp at hi
      omega
  · refine C5_symlink_exclusion [(["l"], Node.symlink "t" 0)] (some []) true
      ["l"] "t" 0 ⟨by simp, List.pairwise_singleton _ _, ?_⟩
      (List.mem_singleton.mpr rfl) (by rfl)
    intro e he i h0 hi
    rcases List.mem_singleton.mp he with rfl
    simp at hi
    omega

/-- Claim C10 — confirmed (implicit behaviour).  When the source holds a
directory at `p` while the destination holds a regular file at the same
tree-relative path, `Dirs` returns an error (the recursive directory
creation, or the parent-chain creation of a copy below `p`, fails on the
existing file) and the destination file at `p` is left in place — it is
never replaced by a directory. -/
theorem C10_type_collision_abort (s d : Tree) (dm : Bool) (p : Path) (pmd : Nat)
    (c : List Nat) (mt : Int) (pm : Nat)
    (hn : NodupKeys s) (hp : p ≠ []) (hmem : (p, Node.dir pmd) ∈ s)
    (hd : lookupKey d p = some (Node.file c mt pm)) :
    (Dirs (some s) (some d) dm).snd.isSome = true ∧
    lookupKey (((Dirs (some s) (some d) dm).fst).getD []) p =
      some (Node.file c mt pm) := by
  have hkey : ∀ e ∈ s, e.fst = p → e.snd = Node.dir pmd := by
    intro e he hef
    have hmem2 : (p, e.snd) ∈ s := by rw [← hef]; exact he
    exact nodup_key_unique hn hmem2 hmem
  have hblk := walkSrc_dir_blocked s ⟨d, invOf d⟩ p pmd c mt pm hmem hkey hp hd
  rcases hw : walkSrc s ⟨d, invOf d⟩ with ⟨st, e?⟩
  rw [hw] at hblk
  cases e? with
  | none => exact absurd hblk.1 (by simp)
  | some err =>
    constructor
    · simp [Dirs, hw]
    · have hfst : (Dirs (some s) (some d) dm).fst = some st.dst := by
        simp [Dirs, hw]
      rw [hfst]
      exact hblk.2

/-- Witness for C10: source directory `a` against a destination file `a`. -/
theorem C10_type_collision_abort_witness :
    lookupKey [(["a"], Node.file [2] 3 4)] ["a"] = some (Node.file [2] 3 4) ∧
    (Dirs (some [(["a"], Node.dir 1)]) (some [(["a"], Node.file [2] 3 4)])
      true).snd.isSome = true ∧
    lookupKey (((Dirs (some [(["a"], Node.dir 1)])
      (some [(["a"], Node.file [2] 3 4)]) true).fst).getD []) ["a"] =
      some (Node.file [2] 3 4) := by
  refine ⟨by decide, ?_⟩
  exact C10_type_collision_abort [(["a"], Node.dir 1)] [(["a"], Node.file [2] 3 4)]
    true ["a"] 1 [2] 3 4 (List.pairwise_singleton _ _) (by simp)
    (List.mem_singleton.mpr rfl) (by decide)

theorem lookup_of_mem_nodup : ∀ {t : Tree}, NodupKeys t → ∀ {p : Path} {n : Node},
    (p, n) ∈ t → lookupKey t p = some n := by
  intro t
  induction t with
  | nil => intro _ p n h; cases h
  | cons e rest ih =>
    intro hn p n h
    rw [NodupKeys, List.pairwise_cons] at hn
    obtain ⟨hhead, htail⟩ := hn
    rcases List.mem_cons.mp h with h' | h'
    · rw [lookupKey, ← h', if_pos rfl]
    · have hne : e.fst ≠ p := hhead (p, n) h'
      rw [lookupKey, if_neg hne]
      exact ih htail h'

theorem mirror_mem_file {s : Tree} {p : Path} {c : List Nat} {mt : Int} {pm : Nat}
    (h : (p, Node.file c mt pm) ∈ s) : (p, Node.file c mt pm) ∈ mirror s :=
  List.mem_filterMap.mpr ⟨(p, Node.file c mt pm), h, rfl⟩

theorem mirror_mem_dir {s : Tree} {p : Path} {pm : Nat}
    (h : (p, Node.dir pm) ∈ s) : (p, Node.dir 0o755) ∈ mirror s :=
  List.mem_filterMap.mpr ⟨(p, Node.dir pm), h, rfl⟩

theorem mirror_back {s : Tree} {q : Path} {y : Node} (h : (q, y) ∈ mirror s) :
    ∃ n, (q, n) ∈ s ∧
      ((∃ c mt pm, n = Node.file c mt pm ∧ y = Node.file c mt pm) ∨
       (∃ pm2, n = Node.dir pm2 ∧ y = Node.dir 0o755)) := by
  obtain ⟨e, he, hf⟩ := List.mem_filterMap.mp h
  obtain ⟨qe, ne⟩ := e
  cases ne with
  | file c mt pm =>
    rw [mirrorEntry] at hf
    injection hf with hf'
    injection hf' with h1 h2
    subst h1
    subst h2
    exact ⟨Node.file c mt pm, he, Or.inl ⟨c, mt, pm, rfl, rfl⟩⟩
  | dir pm2 =>
    rw [mirrorEntry] at hf
    injection hf with hf'
    injection hf' with h1 h2
    subst h1
    subst h2
    exact ⟨Node.dir pm2, he, Or.inr ⟨pm2, rfl, rfl⟩⟩
  | symlink tg mts =>
    rw [mirrorEntry] at hf
    cases hf

theorem mirror_keys_back {s : Tree} {q : Path} {y : Node} (h : (q, y) ∈ mirror s) :
    ∃ n, (q, n) ∈ s :=
  (mirror_back h).elim (fun n hn => ⟨n, hn.1⟩)

theorem mirror_nodup : ∀ {s : Tree}, NodupKeys s → NodupKeys (mirror s) := by
  intro s
  induction s with
  | nil => intro _; exact List.Pairwise.nil
  | cons e rest ih =>
    intro hn
    rw [NodupKeys, List.pairwise_cons] at hn
    obtain ⟨hhead, htail⟩ := hn
    rw [mirror, List.filterMap_cons]
    cases hf : mirrorEntry e with
    | none => exact ih htail
    | some y =>
      refine List.Pairwise.cons ?_ (ih htail)
      intro b hb
      obtain ⟨qb, nb⟩ := b
      obtain ⟨n2, hn2⟩ := mirror_keys_back (show (qb, nb) ∈ mirror rest from hb)
      have hyf : y.fst = e.fst := by
        obtain ⟨qe, ne⟩ := e
        cases ne with
        | file c mt pm =>
          rw [mirrorEntry] at hf
          injection hf with hf'
          rw [← hf']
        | dir pm2 =>
          rw [mirrorEntry] at hf
          injection hf with hf'
          rw [← hf']
        | symlink tg mts =>
          rw [mirrorEntry] at hf
          cases hf
      show y.fst ≠ (qb, nb).fst
      rw [hyf]
      exact hhead (qb, n2) hn2

theorem wf_proper_pre_dir {s : Tree} (hwf : WellFormed s) {q : Path} {n : Node}
    (hmem : (q, n) ∈ s) {r : Path} (hr : r ≠ []) (hpre : r <+: q) (hne : r ≠ q) :
    lookupKey (mirror s) r = some (Node.dir 0o755) := by
  have hlen : r.length < q.length := by
    rcases lt_or_eq_of_le hpre.length_le with hlt | hl
    · exact hlt
    · exact absurd (hpre.eq_of_length hl) hne
  have h0 : 0 < r.length := List.length_pos.mpr hr
  have htake : q.take r.length = r := (List.prefix_iff_eq_take.mp hpre).symm
  have hdir : hasDirAt s (q.take r.length) = true :=
    hwf.2.2 (q, n) hmem r.length h0 hlen
  rw [htake] at hdir
  obtain ⟨pm4, hpm4⟩ := hasDirAt_mem hdir
  exact lookup_of_mem_nodup (mirror_nodup hwf.2.1) (mirror_mem_dir hpm4)

theorem lookupKey_setEntry_cases {t : Tree} {p q : Path} {n x : Node}
    (h : lookupKey (setEntry t p n) q = some x) :
    (q = p ∧ x = n) ∨ (q ≠ p ∧ lookupKey t q = some x) := by
  by_cases hq : q = p
  · subst hq
    rw [lookupKey_setEntry_self] at h
    injection h with h'
    exact Or.inl ⟨rfl, h'.symm⟩
  · right
    refine ⟨hq, ?_⟩
    rw [← lookupKey_setEntry_ne t n hq]
    exact h

theorem mkdirAllAux_lookup_cases :
    ∀ (rest : List String) (done : Path) (t t' : Tree),
      mkdirAllAux t done rest = Except.ok t' →
      ∀ {p : Path} {x : Node}, lookupKey t' p = some x →
        lookupKey t p = some x ∨
          (x = Node.dir 0o755 ∧ p ≠ [] ∧ p <+: (done ++ rest)) := by
  intro rest
  induction rest with
  | nil =>
    intro done t t' h p x hl
    rw [mkdirAllAux] at h
    cases h
    exact Or.inl hl
  | cons c cs ih =>
    intro done t t' h p x hl
    have hrw : (done ++ [c]) ++ cs = done ++ c :: cs := by simp
    rw [mkdirAllAux] at h
    split at h
    · rename_i m hq
      by_cases hd : isDirNode m
      · rw [if_pos hd] at h
        rcases ih _ _ _ h hl with h1 | ⟨hx, hne, hpre⟩
        · exact Or.inl h1
        · exact Or.inr ⟨hx, hne, by rw [← hrw]; exact hpre⟩
      · rw [if_neg hd] at h; cases h
    · rename_i hq
      rcases ih _ _ _ h hl with h1 | ⟨hx, hne, hpre⟩
      · rcases lookupKey_append_single h1 with h2 | ⟨hpq, hx⟩
        · exact Or.inl h2
        · refine Or.inr ⟨hx, ?_, ?_⟩
          · rw [hpq]; simp
          · rw [hpq]; exact ⟨cs, hrw⟩
      · exact Or.inr ⟨hx, hne, by rw [← hrw]; exact hpre⟩

theorem mkdirAllAux_ok :
    ∀ (rest : List String) (done : Path) (t : Tree),
      (∀ r x, r ≠ [] → r <+: (done ++ rest) → lookupKey t r = some x →
        isDirNode x = true) →
      ∃ t', mkdirAllAux t done rest = Except.ok t' := by
  intro rest
  induction rest with
  | nil => intro done t _; exact ⟨t, by rw [mkdirAllAux]⟩
  | cons c cs ih =>
    intro done t hblockers
    have hrw : (done ++ [c]) ++ cs = done ++ c :: cs := by simp
    cases hq : lookupKey t (done ++ [c]) with
    | some m =>
      have hdm : isDirNode m = true :=
        hblockers (done ++ [c]) m (by simp) ⟨cs, hrw⟩ hq
      rw [mkdirAllAux_cons_some hq, if_pos hdm]
      exact ih (done ++ [c]) t
        (fun r x hr hpre hlr => hblockers r x hr (by rw [← hrw]; exact hpre) hlr)
    | none =>
      rw [mkdirAllAux_cons_none hq]
      refine ih (done ++ [c]) _ (fun r x hr hpre hlr => ?_)
      rcases lookupKey_append_single hlr with h1 | ⟨hrq, hx⟩
      · exact hblockers r x hr (by rw [← hrw]; exact hpre) h1
      · rw [hx]; rfl

theorem mkdirAllAux_target_dir :
    ∀ (rest : List String) (done : Path) (t t' : Tree),
      mkdirAllAux t done rest = Except.ok t' → rest ≠ [] →
      ∃ pm, lookupKey t' (done ++ rest) = some (Node.dir pm) := by
  intro rest
  induction rest with
  | nil => intro done t t' _ hne; exact absurd rfl hne
  | cons c cs ih =>
    intro done t t' h _
    cases cs with
    | nil =>
      cases hq : lookupKey t (done ++ [c]) with
      | some m =>
        by_cases hd : isDirNode m
        · rw [mkdirAllAux_cons_some hq, if_pos hd, mkdirAllAux] at h
          cases h
          cases m with
          | dir pm => exact ⟨pm, hq⟩
          | file c3 mt3 pm3 => simp [isDirNode] at hd
          | symlink tg mts => simp [isDirNode] at hd
        · rw [mkdirAllAux_cons_some hq, if_neg hd] at h
          cases h
      | none =>
        rw [mkdirAllAux_cons_none hq, mkdirAllAux] at h
        cases h
        refine ⟨0o755, ?_⟩
        rw [lookupKey_append_none _ hq, lookupKey, if_pos rfl]
    | cons c2 cs2 =>
      have hrw : (done ++ [c]) ++ (c2 :: cs2) = done ++ c :: c2 :: cs2 := by simp
      cases hq : lookupKey t (done ++ [c]) with
      | some m =>
        by_cases hd : isDirNode m
        · rw [mkdirAllAux_cons_some hq, if_pos hd] at h
          obtain ⟨pm, hpm⟩ := ih _ _ _ h (by simp)
          exact ⟨pm, by rw [← hrw]; exact hpm⟩
        · rw [mkdirAllAux_cons_some hq, if_neg hd] at h
          cases h
      | none =>
        rw [mkdirAllAux_cons_none hq] at h
        obtain ⟨pm, hpm⟩ := ih _ _ _ h (by simp)
        exact ⟨pm, by rw [← hrw]; exact hpm⟩

theorem copyFile_error_destruct {t : Tree} {p : Path} {c : List Nat} {mt : Int}
    {pm : Nat} {er : SyncError} (h : copyFile t p c mt pm = Except.error er) :
    mkdirAll t p.dropLast = Except.error er ∨
    (∃ t1 n, mkdirAll t p.dropLast = Except.ok t1 ∧ lookupKey t1 p = some n ∧
      isDirNode n = true) := by
  rw [copyFile] at h
  split at h
  · rename_i e heq
    injection h with h'
    subst h'
    exact Or.inl heq
  · rename_i t1 heq
    split at h
    · rename_i n hn
      by_cases hd : isDirNode n
      · exact Or.inr ⟨t1, n, heq, hn, hd⟩
      · rw [if_neg hd] at h; cases h
    · cases h

theorem walk_mirror (s : Tree) (hwf : WellFormed s) :
    ∀ (l₂ l₁ : List (Path × Node)) (st : St), s = l₁ ++ l₂ → st.inv = [] →
      (∀ p x, lookupKey st.dst p = some x → lookupKey (mirror s) p = some x) →
      (walkSrc l₂ st).snd = none ∧
      (walkSrc l₂ st).fst.inv = [] ∧
      (∀ p x, lookupKey (walkSrc l₂ st).fst.dst p = some x →
        lookupKey (mirror s) p = some x) ∧
      (∀ p x, lookupKey st.dst p = some x → (∀ e ∈ l₂, e.fst ≠ p) →
        lookupKey (walkSrc l₂ st).fst.dst p = some x) ∧
      (∀ e ∈ l₂, mirrored (walkSrc l₂ st).fst.dst e) := by
  intro l₂
  induction l₂ with
  | nil =>
    intro l₁ st _ hinv hup
    exact ⟨rfl, hinv, hup, fun p x hl _ => hl,
      fun e he => absurd he (List.not_mem_nil e)⟩
  | cons e rest ih =>
    intro l₁ st hs hinv hup
    obtain ⟨q, nd⟩ := e
    have hmem : (q, nd) ∈ s := by
      rw [hs]; exact List.mem_append_right _ (List.mem_cons_self _ _)
    have hpw : List.Pairwise (fun a b : Path × Node => a.fst ≠ b.fst)
        ((q, nd) :: rest) := by
      have hsub : List.Sublist ((q, nd) :: rest) s := by
        rw [hs]; exact List.sublist_append_right _ _
      exact hwf.2.1.sublist hsub
    have hnodup : ∀ e2 ∈ rest, e2.fst ≠ q :=
      fun e2 he2 => ((List.pairwise_cons.mp hpw).1 e2 he2).symm
    have hs' : s = (l₁ ++ [(q, nd)]) ++ rest := by rw [hs]; simp
    cases nd with
    | symlink tg mts =>
      have hstep : syncStep st (q, Node.symlink tg mts) = Except.ok st := by
        simp only [syncStep]
      rw [walkSrc, hstep]
      have hih := ih (l₁ ++ [(q, Node.symlink tg mts)]) st hs' hinv hup
      refine ⟨hih.1, hih.2.1, hih.2.2.1, ?_, ?_⟩
      · intro p x hl hne
        exact hih.2.2.2.1 p x hl (fun e2 he2 => hne e2 (List.mem_cons_of_mem _ he2))
      · intro e2 he2
        rcases List.mem_cons.mp he2 with rfl | h2
        · exact trivial
        · exact hih.2.2.2.2 e2 h2
    | dir pmd =>
      have hq0 : q ≠ [] := hwf.1 (q, Node.dir pmd) hmem
      have hmirq : lookupKey (mirror s) q = some (Node.dir 0o755) :=
        lookup_of_mem_nodup (mirror_nodup hwf.2.1) (mirror_mem_dir hmem)
      have hok : ∃ d', mkdirAll st.dst q = Except.ok d' := by
        apply mkdirAllAux_ok
        intro r x hr hpre hl
        rw [List.nil_append] at hpre
        have hmx := hup r x hl
        by_cases hrq : r = q
        · subst hrq
          rw [hmirq] at hmx
          injection hmx with h'
          rw [← h']
          rfl
        · rw [wf_proper_pre_dir hwf hmem hr hpre hrq] at hmx
          injection hmx with h'
          rw [← h']
          rfl
      obtain ⟨d', hd'⟩ := hok
      have hstep : syncStep st (q, Node.dir pmd) = Except.ok ⟨d', st.inv⟩ := by
        simp only [syncStep]
        rw [hd']
      rw [walkSrc, hstep]
      have hup' : ∀ p x, lookupKey d' p = some x →
          lookupKey (mirror s) p = some x := by
        intro p x hl
        rcases mkdirAllAux_lookup_cases _ _ _ _ hd' hl with h1 | ⟨hx, hne, hpre⟩
        · exact hup p x h1
        · rw [List.nil_append] at hpre
          subst hx
          by_cases hpq : p = q
          · subst hpq; exact hmirq
          · exact wf_proper_pre_dir hwf hmem hne hpre hpq
      have hih := ih (l₁ ++ [(q, Node.dir pmd)]) ⟨d', st.inv⟩ hs' hinv hup'
      refine ⟨hih.1, hih.2.1, hih.2.2.1, ?_, ?_⟩
      · intro p x hl hne
        have h1 : lookupKey d' p = some x := mkdirAllAux_some _ _ _ _ hd' hl
        exact hih.2.2.2.1 p x h1 (fun e2 he2 => hne e2 (List.mem_cons_of_mem _ he2))
      · intro e2 he2
        rcases List.mem_cons.mp he2 with rfl | h2
        · obtain ⟨pmq, hpmq⟩ := by
            have := mkdirAllAux_target_dir _ _ _ _ hd' hq0
            rw [List.nil_append] at this
            exact this
          have hq755 : lookupKey d' q = some (Node.dir 0o755) := by
            have hm2 := hup' q (Node.dir pmq) hpmq
            rw [hmirq] at hm2
            injection hm2 with h'
            injection h' with h''
            rw [← h''] at hpmq
            exact hpmq
          have hfin : lookupKey (walkSrc rest ⟨d', st.inv⟩).fst.dst q =
              some (Node.dir 0o755) :=
            hih.2.2.2.1 q _ hq755 hnodup
          exact hfin
        · exact hih.2.2.2.2 e2 h2
    | file c mt pm =>
      have hq0 : q ≠ [] := hwf.1 (q, Node.file c mt pm) hmem
      have hmirq : lookupKey (mirror s) q = some (Node.file c mt pm) :=
        lookup_of_mem_nodup (mirror_nodup hwf.2.1) (mirror_mem_file hmem)
      have hnone : lookupKey st.inv q = none := by rw [hinv]; rfl
      have hmk : ∃ t1, mkdirAll st.dst q.dropLast = Except.ok t1 := by
        apply mkdirAllAux_ok
        intro r x hr hpre hl
        rw [List.nil_append] at hpre
        have hprq : r <+: q := hpre.trans (dropLast_pre q)
        have hneq : r ≠ q := by
          intro hrq
          subst hrq
          have hle := hpre.length_le
          have hdl : r.dropLast.length = r.length - 1 := List.length_dropLast r
          have h0 : 0 < r.length := List.length_pos.mpr hr
          omega
        have hmx := hup r x hl
        rw [wf_proper_pre_dir hwf hmem hr hprq hneq] at hmx
        injection hmx with h'
        rw [← h']
        rfl
      obtain ⟨t1, ht1⟩ := hmk
      have hcopy : copyFile st.dst q c mt pm =
          Except.ok (setEntry t1 q (Node.file c mt pm)) := by
        cases hc : copyFile st.dst q c mt pm with
        | error er =>
          exfalso
          rcases copyFile_error_destruct hc with h1 | ⟨t1', n, h1, hn, hdn⟩
          · rw [ht1] at h1; cases h1
          · rw [ht1] at h1
            injection h1 with h1'
            subst h1'
            rcases mkdirAllAux_lookup_cases _ _ _ _ ht1 hn with h2 | ⟨hx, hne2, hpre2⟩
            · have hm3 := hup q n h2
              rw [hmirq] at hm3
              injection hm3 with h'
              rw [← h'] at hdn
              simp [isDirNode] at hdn
            · rw [List.nil_append] at hpre2
              have hle := hpre2.length_le
              have hdl : q.dropLast.length = q.length - 1 := List.length_dropLast q
              have h0 : 0 < q.length := List.length_pos.mpr hq0
              omega
        | ok d' =>
          obtain ⟨t1', h1', hset⟩ := copyFile_ok_destruct hc
          rw [ht1] at h1'
          injection h1' with h1''
          rw [hset, h1'']
      have hstep : syncStep st (q, Node.file c mt pm) =
          Except.ok ⟨setEntry t1 q (Node.file c mt pm), st.inv⟩ := by
        simp only [syncStep, hnone]
        rw [hcopy]
      rw [walkSrc, hstep]
      have hup' : ∀ p x, lookupKey (setEntry t1 q (Node.file c mt pm)) p = some x →
          lookupKey (mirror s) p = some x := by
        intro p x hl
        rcases lookupKey_setEntry_cases hl with ⟨hpq, hx⟩ | ⟨hne, h2⟩
        · subst hpq; rw [hx]; exact hmirq
        · rcases mkdirAllAux_lookup_cases _ _ _ _ ht1 h2 with h3 | ⟨hx3, hne3, hpre3⟩
          · exact hup p x h3
          · rw [List.nil_append] at hpre3
            have hprq : p <+: q := hpre3.trans (dropLast_pre q)
            rw [hx3]
            exact wf_proper_pre_dir hwf hmem hne3 hprq hne
      have hih := ih (l₁ ++ [(q, Node.file c mt pm)])
        ⟨setEntry t1 q (Node.file c mt pm), st.inv⟩ hs' hinv hup'
      refine ⟨hih.1, hih.2.1, hih.2.2.1, ?_, ?_⟩
      · intro p x hl hne
        have hpq : q ≠ p := (hne (q, Node.file c mt pm) (List.mem_cons_self _ _))
        have h1 : lookupKey (setEntry t1 q (Node.file c mt pm)) p = some x := by
          rw [lookupKey_setEntry_ne t1 _ (fun h2 : p = q => hpq h2.symm)]
          exact mkdirAllAux_some _ _ _ _ ht1 hl
        exact hih.2.2.2.1 p x h1 (fun e2 he2 => hne e2 (List.mem_cons_of_mem _ he2))
      · intro e2 he2
        rcases List.mem_cons.mp he2 with rfl | h2
        · have hqf : lookupKey (setEntry t1 q (Node.file c mt pm)) q =
              some (Node.file c mt pm) := lookupKey_setEntry_self t1 q _
          have hfin : lookupKey (walkSrc rest
              ⟨setEntry t1 q (Node.file c mt pm), st.inv⟩).fst.dst q =
              some (Node.file c mt pm) :=
            hih.2.2.2.1 q _ hqf hnodup
          exact hfin
        · exact hih.2.2.2.2 e2 h2

/-- Claim C8 — confirmed.  With a well-formed source tree and a
non-existent destination root, the run succeeds after creating the
destination root (the initial `os.MkdirAll(dstDir, 0o755)`), and the
resulting destination is exactly the mirror of the source: every source
file at its tree-relative path with identical bytes, modification time and
permission bits, every source directory recreated with permission 0o755,
and nothing else (the root's own permission bits are not part of the tree
model; the 0o755 mode is verified on every created interior directory). -/
theorem C8_auto_created_destination (s : Tree) (dm : Bool) (hwf : WellFormed s) :
    (Dirs (some s) none dm).snd = none ∧
    ∀ p, lookupKey (((Dirs (some s) none dm).fst).getD []) p =
      lookupKey (mirror s) p := by
  have hw := walk_mirror s hwf s [] ⟨[], []⟩ (by simp) rfl
    (fun p x h => by simp [lookupKey] at h)
  rcases hwr : walkSrc s ⟨[], []⟩ with ⟨st, e?⟩
  rw [hwr] at hw
  obtain ⟨hsnd, hinv, hupF, hframe, hmirr⟩ := hw
  cases e? with
  | some err => simp at hsnd
  | none =>
    have hinv' : st.inv = [] := hinv
    have hfst : (Dirs (some s) none dm).fst = some st.dst ∧
        (Dirs (some s) none dm).snd = none := by
      cases dm with
      | false => exact ⟨by simp [Dirs, invOf, hwr], by simp [Dirs, invOf, hwr]⟩
      | true =>
        constructor
        · simp [Dirs, invOf, hwr, hinv', deletePass]
        · simp [Dirs, invOf, hwr]
    refine ⟨hfst.2, ?_⟩
    intro p
    rw [hfst.1]
    cases hm : lookupKey (mirror s) p with
    | some y =>
      obtain ⟨n, hnmem, hcase⟩ := mirror_back (lookupKey_mem hm)
      rcases hcase with ⟨c, mt, pmx, hn, hy⟩ | ⟨pm2, hn, hy⟩
      · subst hn
        subst hy
        have hx : lookupKey st.dst p = some (Node.file c mt pmx) :=
          hmirr (p, Node.file c mt pmx) hnmem
        exact hx
      · subst hn
        subst hy
        have hx : lookupKey st.dst p = some (Node.dir 0o755) :=
          hmirr (p, Node.dir pm2) hnmem
        exact hx
    | none =>
      cases hl : lookupKey st.dst p with
      | none => exact hl
      | some x =>
        have := hupF p x hl
        rw [hm] at this
        cases this

/-- Witness for C8: mirroring directory `d` with file `d/f` into a missing
destination. -/
theorem C8_auto_created_destination_witness :
    WellFormed [(["d"], Node.dir 448), (["d", "f"], Node.file [1] 2 3)] ∧
    (Dirs (some [(["d"], Node.dir 448), (["d", "f"], Node.file [1] 2 3)])
      none false).snd = none ∧
    lookupKey (((Dirs (some [(["d"], Node.dir 448), (["d", "f"], Node.file [1] 2 3)])
      none false).fst).getD []) ["d", "f"] =
      lookupKey (mirror [(["d"], Node.dir 448), (["d", "f"], Node.file [1] 2 3)])
        ["d", "f"] := by
  have hwf : WellFormed [(["d"], Node.dir 448), (["d", "f"], Node.file [1] 2 3)] := by
    refine ⟨by simp, ?_, ?_⟩
    · refine List.pairwise_cons.mpr ⟨?_, List.pairwise_singleton _ _⟩
      intro b hb
      rcases List.mem_singleton.mp hb with rfl
      simp
    · intro e he i h0 hi
      rcases List.mem_cons.mp he with rfl | he2
      · simp at hi
        omega
      · rcases List.mem_singleton.mp he2 with rfl
        simp at hi
        have : i = 1 := by omega
        subst this
        decide
  refine ⟨hwf, (C8_auto_created_destination _ false hwf).1,
    (C8_auto_created_destination _ false hwf).2 ["d", "f"]⟩

end Dirsync
